import Mathlib

/-!
Verification development for the GitHub issue analyzer's text-extraction core:
`IssueAnalyzerService.extractFileReferences`, `IssueAnalyzerService.analyzeCode`
and `GeminiService.parseAIResponse`, shallowly embedded from the JavaScript
source.  The JavaScript regular expressions are modelled by a small
backtracking engine (`Rx` / `mrun`) whose outcome list is ordered exactly by
the JS backtracking priority (ordered alternation, greedy quantifiers longest
first, lazy quantifiers shortest first); the first element of the outcome list
is the JS match.  All quantifiers in the source regexes range over single
character classes, so the engine only needs class quantifiers.
-/

/-- Character class for JS `\w`, that is `[A-Za-z0-9_]`. -/
def isWordChar (c : Char) : Bool := c.isAlpha || c.isDigit || c = '_'

/-- Character class for `[\w\-./]`, the path characters of the source regexes. -/
def isPathChar (c : Char) : Bool := isWordChar c || c = '-' || c = '.' || c = '/'

/-- Character class for JS `\d`. -/
def isDigitChar (c : Char) : Bool := c.isDigit

/-- Character class for `[a-zA-Z]`. -/
def isAlphaChar (c : Char) : Bool := c.isAlpha

/-- Character class for JS `\s` (ASCII part, which covers all inputs used here). -/
def isSpaceChar (c : Char) : Bool :=
  c = ' ' || c = '\t' || c = '\n' || c = '\r' || c = '\x0b' || c = '\x0c'

/-- Class accepting any character: JS `.` under the `s` flag, and `[\s\S]`. -/
def anyChar (_ : Char) : Bool := true

/-- Class for `[:\s]`, used after the section labels. -/
def isColonSpace (c : Char) : Bool := c = ':' || isSpaceChar c

/-- Class for `['"]`. -/
def isQuoteChar (c : Char) : Bool := c = '\'' || c = '"'

/-- Class for `[^'"]`. -/
def isNotQuoteChar (c : Char) : Bool := !(isQuoteChar c)

/-- Class for `[:=]`, used in the credential patterns. -/
def isColonEq (c : Char) : Bool := c = ':' || c = '='

/-- Class for `[_-]`, used in the `api[_-]?key` credential pattern. -/
def isUnderscoreDash (c : Char) : Bool := c = '_' || c = '-'

/-- Abstract syntax of the source regexes.  Quantifiers range over character
classes only, which covers every regex in the JavaScript source. -/
inductive Rx where
  | lit : String → Rx
  | ilit : String → Rx
  | cls1 : (Char → Bool) → Rx
  | plusG : (Char → Bool) → Rx
  | starG : (Char → Bool) → Rx
  | starL : (Char → Bool) → Rx
  | seq : Rx → Rx → Rx
  | alt : Rx → Rx → Rx
  | opt : Rx → Rx
  | grp : Nat → Rx → Rx
  | look : Rx → Rx
  | eos : Rx

/-- Capture list: entries `(group index, start, stop)` in the subject string. -/
abbrev Caps := List (Nat × Nat × Nat)

/-- Test that literal `s` occurs at position `pos` of `t`. -/
def startsWithAt (t : List Char) (pos : Nat) (s : List Char) : Bool :=
  s = (t.drop pos).take s.length

/-- Case-insensitive variant of `startsWithAt` (JS `i` flag, ASCII folding). -/
def startsWithAtCI (t : List Char) (pos : Nat) (s : List Char) : Bool :=
  s.map Char.toLower = ((t.drop pos).take s.length).map Char.toLower

/-- Length of the maximal leading run of characters satisfying `p`. -/
def leadRun (p : Char → Bool) : List Char → Nat
  | [] => 0
  | c :: cs => if p c then leadRun p cs + 1 else 0

/-- Candidate lengths for a greedy `+` quantifier: longest first, at least one. -/
def greedyPlusLens (n : Nat) : List Nat := (List.range n).reverse.map (· + 1)

/-- Candidate lengths for a greedy `*` quantifier: longest first, down to zero. -/
def greedyStarLens (n : Nat) : List Nat := (List.range (n + 1)).reverse

/-- Candidate lengths for a lazy `*` quantifier: shortest first. -/
def lazyStarLens (n : Nat) : List Nat := List.range (n + 1)

/-- Backtracking matcher.  `mrun t r pos caps` is the list of outcomes
`(end position, captures)` of matching `r` at position `pos` of `t`, ordered
by JS backtracking priority; the head of the list is the JS outcome. -/
def mrun (t : List Char) : Rx → Nat → Caps → List (Nat × Caps)
  | .lit s, pos, caps =>
      if startsWithAt t pos s.toList then [(pos + s.length, caps)] else []
  | .ilit s, pos, caps =>
      if startsWithAtCI t pos s.toList then [(pos + s.length, caps)] else []
  | .cls1 p, pos, caps =>
      match (t.drop pos).head? with
      | some c => if p c then [(pos + 1, caps)] else []
      | none => []
  | .plusG p, pos, caps =>
      (greedyPlusLens (leadRun p (t.drop pos))).map (fun k => (pos + k, caps))
  | .starG p, pos, caps =>
      (greedyStarLens (leadRun p (t.drop pos))).map (fun k => (pos + k, caps))
  | .starL p, pos, caps =>
      (lazyStarLens (leadRun p (t.drop pos))).map (fun k => (pos + k, caps))
  | .seq a b, pos, caps =>
      (mrun t a pos caps).flatMap (fun pc => mrun t b pc.1 pc.2)
  | .alt a b, pos, caps => mrun t a pos caps ++ mrun t b pos caps
  | .opt a, pos, caps => mrun t a pos caps ++ [(pos, caps)]
  | .grp i a, pos, caps =>
      (mrun t a pos caps).map (fun pc => (pc.1, (i, pos, pc.1) :: pc.2))
  | .look a, pos, caps =>
      if (mrun t a pos caps).isEmpty then [] else [(pos, caps)]
  | .eos, pos, caps => if pos = t.length then [(pos, caps)] else []

/-- First (JS) outcome of matching `r` exactly at position `pos`. -/
def matchAt (t : List Char) (r : Rx) (pos : Nat) : Option (Nat × Caps) :=
  (mrun t r pos []).head?

/-- Scan for the leftmost match of `r` at or after `pos`, with fuel. -/
def searchAux (t : List Char) (r : Rx) : Nat → Nat → Option (Nat × Nat × Caps)
  | 0, _ => none
  | fuel + 1, pos =>
      match matchAt t r pos with
      | some (stop, caps) => some (pos, stop, caps)
      | none => if pos < t.length then searchAux t r fuel (pos + 1) else none

/-- Leftmost match of `r` at or after `pos`: `(start, stop, captures)`. -/
def search (t : List Char) (r : Rx) (pos : Nat) : Option (Nat × Nat × Caps) :=
  searchAux t r (t.length + 1 - pos) pos

/-- All matches found by a JS `while (re.exec(text))` loop with the `g` flag:
repeated leftmost search, continuing from the end of the previous match
(advancing one position past a zero-width match). -/
def execAllAux (t : List Char) (r : Rx) : Nat → Nat → List (Nat × Nat × Caps)
  | 0, _ => []
  | fuel + 1, pos =>
      if pos > t.length then [] else
      match search t r pos with
      | none => []
      | some (st, sp, caps) =>
          (st, sp, caps) :: execAllAux t r fuel (if sp = st then sp + 1 else sp)

/-- All global-exec matches of `r` over `t`. -/
def execAll (t : List Char) (r : Rx) : List (Nat × Nat × Caps) :=
  execAllAux t r (t.length + 1) 0

/-- Span `(start, stop)` recorded for group `i`, first entry winning. -/
def capLookup (caps : Caps) (i : Nat) : Option (Nat × Nat) :=
  match caps.find? (fun x => x.1 = i) with
  | some x => some (x.2.1, x.2.2)
  | none => none

/-- Text captured by group `i`, as a string. -/
def capString (t : List Char) (caps : Caps) (i : Nat) : Option String :=
  (capLookup caps i).map (fun se => String.mk ((t.drop se.1).take (se.2 - se.1)))

/-- Substring of `t` from `st` (inclusive) to `sp` (exclusive). -/
def sliceStr (t : List Char) (st sp : Nat) : String :=
  String.mk ((t.drop st).take (sp - st))

/-- Pieces of `t` delimited by the given match list (JS `String.split`). -/
def piecesFrom (t : List Char) : Nat → List (Nat × Nat × Caps) → List String
  | pos, [] => [String.mk (t.drop pos)]
  | pos, m :: rest => sliceStr t pos m.1 :: piecesFrom t m.2.1 rest

/-- JS `String.split` against regex `r` (no capture groups in the separator). -/
def splitPieces (t : List Char) (r : Rx) : List String :=
  piecesFrom t 0 (execAll t r)

/-- JS `String.replace` with a non-global regex: remove the leftmost match. -/
def replaceFirst (t : List Char) (r : Rx) : List Char :=
  match search t r 0 with
  | none => t
  | some (st, sp, _) => t.take st ++ t.drop sp

/-- JS `RegExp.test`: does `r` match anywhere in `t`? -/
def rxTest (t : List Char) (r : Rx) : Bool := (search t r 0).isSome

/-- JS `String.trim` (ASCII whitespace, which covers all inputs used here). -/
def jsTrim (s : String) : String :=
  String.mk (((s.toList.dropWhile isSpaceChar).reverse.dropWhile isSpaceChar).reverse)

/-- JS `parseInt(d, 10)` on a non-empty digit string. -/
def natOfString (s : String) : Nat :=
  s.toList.foldl (fun acc c => acc * 10 + (c.toNat - 48)) 0

/-- JS `String.includes`: is `need` a contiguous substring of the list? -/
def strIncludesAux (need : List Char) : List Char → Bool
  | [] => need.isEmpty
  | c :: cs => (decide (need = (c :: cs).take need.length)) || strIncludesAux need cs

/-- JS `s.includes(sub)`. -/
def strIncludes (s sub : String) : Bool := strIncludesAux sub.toList s.toList

/-! ## Data model -/

/-- Record returned by `extractFileReferences`. -/
structure FileReference where
  path : String
  lineNumbers : List Nat
deriving DecidableEq, Repr

/-- Input record of `parseAIResponse`: a file path with its full content. -/
structure KnownFile where
  path : String
  content : String
deriving DecidableEq, Repr

/-- Code snippet record produced by `parseAIResponse`. -/
structure CodeSnippet where
  filePath : String
  originalCode : String
  suggestedCode : String
  lineNumbers : List Nat
deriving DecidableEq, Repr

/-- Structured solution record produced by `parseAIResponse`. -/
structure StructuredSolution where
  analysis : String
  solution : String
  codeSnippets : List CodeSnippet
  bestPractices : List String
deriving DecidableEq, Repr

/-- Issue record produced by `analyzeCode`. -/
structure CodeIssue where
  type : String
  description : String
  severity : String
deriving DecidableEq, Repr

/-! ## The source regexes -/

/-- Extension tail of the path atom: `\.[a-zA-Z]+`. -/
def pathExtTail : Rx := .seq (.lit ".") (.plusG isAlphaChar)

/-- The shared path atom `[\w\-./]+\.[a-zA-Z]+`. -/
def pathAtom : Rx := .seq (.plusG isPathChar) pathExtTail

/-- Tail of the pass-1 regex after the path group: `:(\d+)(?:-(\d+))?`. -/
def fileLineTail : Rx :=
  .seq (.lit ":")
    (.seq (.grp 2 (.plusG isDigitChar))
      (.opt (.seq (.lit "-") (.grp 3 (.plusG isDigitChar)))))

/-- Source regex `([\w\-./]+\.[a-zA-Z]+):(\d+)(?:-(\d+))?` (flag `g`). -/
def fileLinePattern : Rx := .seq (.grp 1 pathAtom) fileLineTail

/-- Source regex appearing twice in the repository (flag `g`):
three backticks, `(?:[a-zA-Z]+)?\s*(?:([\w\-./]+\.[a-zA-Z]+))?[\s\S]*?`,
three backticks. -/
def codeBlockPattern : Rx :=
  .seq (.lit "```")
    (.seq (.opt (.plusG isAlphaChar))
      (.seq (.starG isSpaceChar)
        (.seq (.opt (.grp 1 pathAtom))
          (.seq (.starL anyChar) (.lit "```")))))

/-- Source regex for the analysis section (flags `is`):
`(?:Analysis|Issue Analysis)[:\s]+(.*?)` followed by the lookahead
`(?=\n\s*(?:Solution|Step-by-step solution|Suggested solution|\d\.\s*Solution))`. -/
def analysisRx : Rx :=
  .seq (.alt (.ilit "Analysis") (.ilit "Issue Analysis"))
    (.seq (.plusG isColonSpace)
      (.seq (.grp 1 (.starL anyChar))
        (.look (.seq (.lit "\n")
          (.seq (.starG isSpaceChar)
            (.alt (.ilit "Solution")
              (.alt (.ilit "Step-by-step solution")
                (.alt (.ilit "Suggested solution")
                  (.seq (.cls1 isDigitChar)
                    (.seq (.lit ".") (.seq (.starG isSpaceChar) (.ilit "Solution"))))))))))))

/-- Source regex for the solution section (flags `is`):
`(?:Solution|Step-by-step solution|Suggested solution)[:\s]+(.*?)` followed by
`(?=\n\s*(?:Best Practices|Prevention|\d\.\s*Best Practices))`. -/
def solutionRx : Rx :=
  .seq (.alt (.ilit "Solution")
      (.alt (.ilit "Step-by-step solution") (.ilit "Suggested solution")))
    (.seq (.plusG isColonSpace)
      (.seq (.grp 1 (.starL anyChar))
        (.look (.seq (.lit "\n")
          (.seq (.starG isSpaceChar)
            (.alt (.ilit "Best Practices")
              (.alt (.ilit "Prevention")
                (.seq (.cls1 isDigitChar)
                  (.seq (.lit ".") (.seq (.starG isSpaceChar) (.ilit "Best Practices")))))))))))

/-- Source regex for the best-practices section (flags `is`):
`(?:Best Practices|Prevention)[:\s]+(.*?)` followed by
`(?=\n\s*(?:Code Improvements|Suggested Improvements|Conclusion|$))`. -/
def bestPracticesRx : Rx :=
  .seq (.alt (.ilit "Best Practices") (.ilit "Prevention"))
    (.seq (.plusG isColonSpace)
      (.seq (.grp 1 (.starL anyChar))
        (.look (.seq (.lit "\n")
          (.seq (.starG isSpaceChar)
            (.alt (.ilit "Code Improvements")
              (.alt (.ilit "Suggested Improvements")
                (.alt (.ilit "Conclusion") .eos))))))))

/-- Source regex `\n\s*(?:\d+\.|-|\*)\s+`, the best-practices item separator. -/
def splitMarkersRx : Rx :=
  .seq (.lit "\n")
    (.seq (.starG isSpaceChar)
      (.seq (.alt (.seq (.plusG isDigitChar) (.lit "."))
          (.alt (.lit "-") (.lit "*")))
        (.plusG isSpaceChar)))

/-- Source regex used to strip the opening fence of a code block:
three backticks, `(?:[a-zA-Z]+)?\s*(?:[\w\-./]+\.[a-zA-Z]+)?\s*\n?`. -/
def stripOpenRx : Rx :=
  .seq (.lit "```")
    (.seq (.opt (.plusG isAlphaChar))
      (.seq (.starG isSpaceChar)
        (.seq (.opt pathAtom)
          (.seq (.starG isSpaceChar) (.opt (.lit "\n"))))))

/-- Source regex `\n?` then three backticks then `$`, stripping the closing fence. -/
def stripCloseRx : Rx :=
  .seq (.opt (.lit "\n")) (.seq (.lit "```") .eos)

/-- The five credential regexes of `analyzeCode`, in source order:
each is a keyword, then `\s*[:=]\s*`, then `['"]+[^'"]+['"]`. -/
def credTail : Rx :=
  .seq (.starG isSpaceChar)
    (.seq (.cls1 isColonEq)
      (.seq (.starG isSpaceChar)
        (.seq (.plusG isQuoteChar)
          (.seq (.plusG isNotQuoteChar) (.cls1 isQuoteChar)))))

/-- Credential patterns list from `analyzeCode`. -/
def credentialPatterns : List Rx :=
  [ .seq (.lit "password") credTail,
    .seq (.lit "api") (.seq (.opt (.cls1 isUnderscoreDash)) (.seq (.lit "key") credTail)),
    .seq (.lit "secret") credTail,
    .seq (.lit "token") credTail,
    .seq (.lit "auth") credTail ]

/-! ## IssueAnalyzerService.extractFileReferences -/

/-- Pass-1 matches of `fileLinePattern`: `(path, startLine, endLine)`, where
`endLine` defaults to `startLine` when group 3 is absent (the JS
`match[3] ? parseInt(match[3], 10) : startLine`). -/
def pass1Matches (t : List Char) : List (String × Nat × Nat) :=
  (execAll t fileLinePattern).map (fun m =>
    let p := (capString t m.2.2 1).getD ""
    let s := natOfString ((capString t m.2.2 2).getD "")
    let e := match capString t m.2.2 3 with
             | some d => natOfString d
             | none => s
    (p, s, e))

/-- The JS loop `for (let i = startLine; i <= endLine; i++) lineNumbers.push(i)`. -/
def collectLines (s e : Nat) : List Nat := List.range' s (e + 1 - s)

/-- FileReference list pushed by pass 1 of `extractFileReferences`. -/
def pass1Refs (t : List Char) : List FileReference :=
  (pass1Matches t).map (fun m => { path := m.1, lineNumbers := collectLines m.2.1 m.2.2 })

/-- Pass-2 code-block filename annotations, in match order; the JS
`if (match[1])` keeps only a present, non-empty group 1. -/
def pass2Annotations (t : List Char) : List String :=
  (execAll t codeBlockPattern).filterMap (fun m =>
    match capString t m.2.2 1 with
    | some p => if p = "" then none else some p
    | none => none)

/-- Pass-2 loop of `extractFileReferences`: push a FileReference with empty
line numbers for each annotation whose path is not already present. -/
def addPass2 (acc : List FileReference) : List String → List FileReference
  | [] => acc
  | p :: ps =>
      if acc.any (fun r => r.path = p) then addPass2 acc ps
      else addPass2 (acc ++ [{ path := p, lineNumbers := [] }]) ps

/-- Shallow embedding of `IssueAnalyzerService.extractFileReferences`.  The
`Option` input models the JS null/undefined case; `!issueBody` is true for
null and for the empty string, both returning `[]`. -/
def extractFileReferences (issueBody : Option String) : List FileReference :=
  match issueBody with
  | none => []
  | some s =>
      if s = "" then []
      else addPass2 (pass1Refs s.toList) (pass2Annotations s.toList)

/-! ## IssueAnalyzerService.analyzeCode -/

/-- Shallow embedding of `IssueAnalyzerService.analyzeCode`.  `none` models a
null/non-string argument; `!code` is also true for the empty string. -/
def analyzeCode (code : Option String) : List CodeIssue :=
  match code with
  | none => []
  | some c =>
      if c = "" then []
      else
        (if strIncludes c "console.log" || strIncludes c "console.debug" ||
            strIncludes c "console.error" then
          [{ type := "debugging", description := "Debug statements found in code",
             severity := "low" }] else []) ++
        (if strIncludes c "TODO" || strIncludes c "FIXME" || strIncludes c "HACK" ||
            strIncludes c "XXX" then
          [{ type := "incomplete", description := "TODO, FIXME, HACK or XXX comments found",
             severity := "medium" }] else []) ++
        (if strIncludes c "eval(" || strIncludes c "new Function(" then
          [{ type := "security", description := "Potentially unsafe code execution",
             severity := "high" }] else []) ++
        (if credentialPatterns.any (fun r => rxTest c.toList r) then
          [{ type := "security", description := "Potential hardcoded credentials found",
             severity := "critical" }] else [])

/-! ## GeminiService.parseAIResponse -/

/-- First paragraph fallback: `aiResponse.split('\n\n')[0]`. -/
def firstParagraph (s : String) : String :=
  (splitPieces s.toList (.lit "\n\n")).headD ""

/-- Strip the fences of a code block, as the source does with two `replace`
calls on `match[0]`. -/
def stripFences (block : List Char) : String :=
  String.mk (replaceFirst (replaceFirst block stripOpenRx) stripCloseRx)

/-- Build one CodeSnippet from a code-block match, as in the source's
`while` loop body: annotation from group 1 (`codeMatch[1] || ''`), snippet
code from the stripped block, known-file lookup by bidirectional
`includes` via `Array.find`. -/
def mkSnippet (fileContents : List KnownFile) (t : List Char) (m : Nat × Nat × Caps) :
    CodeSnippet :=
  let block := (t.drop m.1).take (m.2.1 - m.1)
  let fp := (capString t m.2.2 1).getD ""
  let code := stripFences block
  let matched :=
    if fp = "" then none
    else fileContents.find? (fun f => strIncludes f.path fp || strIncludes fp f.path)
  match matched with
  | some f => { filePath := f.path, originalCode := f.content,
                suggestedCode := code, lineNumbers := [] }
  | none => { filePath := fp, originalCode := "",
              suggestedCode := code, lineNumbers := [] }

/-- Section extraction and snippet collection of `parseAIResponse` on a
non-null string.  A present-but-empty capture is falsy in JS
(`if (m && m[1])`), hence the `= ""` tests. -/
def structureCore (s : String) (fileContents : List KnownFile) : StructuredSolution :=
  let t := s.toList
  let analysis :=
    match search t analysisRx 0 with
    | some (_, _, caps) =>
        match capString t caps 1 with
        | some a => if a = "" then jsTrim (firstParagraph s) else jsTrim a
        | none => jsTrim (firstParagraph s)
    | none => jsTrim (firstParagraph s)
  let solu :=
    match search t solutionRx 0 with
    | some (_, _, caps) =>
        match capString t caps 1 with
        | some a => if a = "" then "" else jsTrim a
        | none => ""
    | none => ""
  let bps :=
    match search t bestPracticesRx 0 with
    | some (_, _, caps) =>
        match capString t caps 1 with
        | some a =>
            if a = "" then []
            else
              ((splitPieces (jsTrim a).toList splitMarkersRx).filter
                (fun x => x ≠ "")).map jsTrim
        | none => []
    | none => []
  let snippets := (execAll t codeBlockPattern).map (mkSnippet fileContents t)
  { analysis := analysis, solution := solu, codeSnippets := snippets,
    bestPractices := bps }

/-- Shallow embedding of `GeminiService.parseAIResponse`.  A null `aiResponse`
makes the JS method throw at its first `aiResponse.match(...)` call, modelled
by the `Except.error`; every non-null string input returns normally. -/
def parseAIResponse (aiResponse : Option String) (fileContents : List KnownFile) :
    Except String StructuredSolution :=
  match aiResponse with
  | none => .error "TypeError: null has no method match"
  | some s => .ok (structureCore s fileContents)

/-! ## Engine lemmas -/

theorem head?_mem {α : Type} {l : List α} {a : α} (h : l.head? = some a) : a ∈ l := by
  cases l with
  | nil => simp at h
  | cons x xs =>
      simp only [List.head?] at h
      cases h
      exact List.mem_cons_self ..

theorem leadRun_le (p : Char → Bool) (l : List Char) : leadRun p l ≤ l.length := by
  induction l with
  | nil => simp [leadRun]
  | cons c cs ih =>
      simp only [leadRun, List.length_cons]
      split
      · omega
      · omega

/-- Every outcome of the matcher ends at or after its start position. -/
theorem mrun_mono (t : List Char) (r : Rx) :
    ∀ pos caps out, out ∈ mrun t r pos caps → pos ≤ out.1 := by
  induction r with
  | lit s =>
      intro pos caps out h
      simp only [mrun] at h
      split at h
      · simp only [List.mem_singleton] at h
        subst h
        exact Nat.le_add_right ..
      · simp at h
  | ilit s =>
      intro pos caps out h
      simp only [mrun] at h
      split at h
      · simp only [List.mem_singleton] at h
        subst h
        exact Nat.le_add_right ..
      · simp at h
  | cls1 p =>
      intro pos caps out h
      simp only [mrun] at h
      rcases hh : (t.drop pos).head? with _ | c
      · rw [hh] at h
        simp at h
      · rw [hh] at h
        by_cases hp : p c = true
        · simp [hp] at h
          subst h
          exact Nat.le_add_right ..
        · simp [hp] at h
  | plusG p =>
      intro pos caps out h
      simp only [mrun, List.mem_map] at h
      obtain ⟨k, _, rfl⟩ := h
      exact Nat.le_add_right ..
  | starG p =>
      intro pos caps out h
      simp only [mrun, List.mem_map] at h
      obtain ⟨k, _, rfl⟩ := h
      exact Nat.le_add_right ..
  | starL p =>
      intro pos caps out h
      simp only [mrun, List.mem_map] at h
      obtain ⟨k, _, rfl⟩ := h
      exact Nat.le_add_right ..
  | seq a b iha ihb =>
      intro pos caps out h
      simp only [mrun, List.mem_flatMap] at h
      obtain ⟨mid, hmid, hout⟩ := h
      exact le_trans (iha _ _ _ hmid) (ihb _ _ _ hout)
  | alt a b iha ihb =>
      intro pos caps out h
      simp only [mrun, List.mem_append] at h
      rcases h with h | h
      · exact iha _ _ _ h
      · exact ihb _ _ _ h
  | opt a iha =>
      intro pos caps out h
      simp only [mrun, List.mem_append, List.mem_singleton] at h
      rcases h with h | h
      · exact iha _ _ _ h
      · subst h
        exact le_refl _
  | grp i a iha =>
      intro pos caps out h
      simp only [mrun, List.mem_map] at h
      obtain ⟨pc, hpc, rfl⟩ := h
      exact iha pos caps pc hpc
  | look a iha =>
      intro pos caps out h
      simp only [mrun] at h
      split at h
      · simp at h
      · simp only [List.mem_singleton] at h
        subst h
        exact le_refl _
  | eos =>
      intro pos caps out h
      simp only [mrun] at h
      split at h
      · simp only [List.mem_singleton] at h
        subst h
        exact le_refl _
      · simp at h

/-- A greedy plus over a class consumes at least one and stays inside `t`. -/
theorem mrun_plusG_bounds (t : List Char) (p : Char → Bool) (pos : Nat) (caps : Caps)
    (out : Nat × Caps) (h : out ∈ mrun t (.plusG p) pos caps) :
    pos < out.1 ∧ out.1 ≤ t.length ∧ out.2 = caps := by
  simp only [mrun, List.mem_map] at h
  obtain ⟨k, hk, rfl⟩ := h
  simp only [greedyPlusLens, List.mem_map, List.mem_reverse, List.mem_range] at hk
  obtain ⟨j, hj, rfl⟩ := hk
  have h2 : leadRun p (t.drop pos) ≤ t.length - pos := by
    have := leadRun_le p (t.drop pos)
    simpa [List.length_drop] using this
  refine ⟨by omega, by omega, rfl⟩

/-- Group indices that a regex can record. -/
def grpIdxs : Rx → List Nat
  | .seq a b => grpIdxs a ++ grpIdxs b
  | .alt a b => grpIdxs a ++ grpIdxs b
  | .opt a => grpIdxs a
  | .grp i a => i :: grpIdxs a
  | _ => []

/-- The matcher never discards capture entries it was given. -/
theorem mrun_caps_grow (t : List Char) (r : Rx) :
    ∀ pos caps out, out ∈ mrun t r pos caps → ∀ x ∈ caps, x ∈ out.2 := by
  induction r with
  | lit s =>
      intro pos caps out h x hx
      simp only [mrun] at h
      split at h
      · simp only [List.mem_singleton] at h
        subst h
        exact hx
      · simp at h
  | ilit s =>
      intro pos caps out h x hx
      simp only [mrun] at h
      split at h
      · simp only [List.mem_singleton] at h
        subst h
        exact hx
      · simp at h
  | cls1 p =>
      intro pos caps out h x hx
      simp only [mrun] at h
      rcases hh : (t.drop pos).head? with _ | c
      · rw [hh] at h
        simp at h
      · rw [hh] at h
        by_cases hp : p c = true
        · simp [hp] at h
          subst h
          exact hx
        · simp [hp] at h
  | plusG p =>
      intro pos caps out h x hx
      simp only [mrun, List.mem_map] at h
      obtain ⟨k, _, rfl⟩ := h
      exact hx
  | starG p =>
      intro pos caps out h x hx
      simp only [mrun, List.mem_map] at h
      obtain ⟨k, _, rfl⟩ := h
      exact hx
  | starL p =>
      intro pos caps out h x hx
      simp only [mrun, List.mem_map] at h
      obtain ⟨k, _, rfl⟩ := h
      exact hx
  | seq a b iha ihb =>
      intro pos caps out h x hx
      simp only [mrun, List.mem_flatMap] at h
      obtain ⟨mid, hmid, hout⟩ := h
      exact ihb _ _ _ hout x (iha _ _ _ hmid x hx)
  | alt a b iha ihb =>
      intro pos caps out h x hx
      simp only [mrun, List.mem_append] at h
      rcases h with h | h
      · exact iha _ _ _ h x hx
      · exact ihb _ _ _ h x hx
  | opt a iha =>
      intro pos caps out h x hx
      simp only [mrun, List.mem_append, List.mem_singleton] at h
      rcases h with h | h
      · exact iha _ _ _ h x hx
      · subst h
        exact hx
  | grp i a iha =>
      intro pos caps out h x hx
      simp only [mrun, List.mem_map] at h
      obtain ⟨pc, hpc, rfl⟩ := h
      exact List.mem_cons_of_mem _ (iha pos caps pc hpc x hx)
  | look a iha =>
      intro pos caps out h x hx
      simp only [mrun] at h
      split at h
      · simp at h
      · simp only [List.mem_singleton] at h
        subst h
        exact hx
  | eos =>
      intro pos caps out h x hx
      simp only [mrun] at h
      split at h
      · simp only [List.mem_singleton] at h
        subst h
        exact hx
      · simp at h

/-- Every capture entry of an outcome either was already present or was
recorded by a group syntactically occurring in the regex. -/
theorem mrun_caps_src (t : List Char) (r : Rx) :
    ∀ pos caps out, out ∈ mrun t r pos caps → ∀ x ∈ out.2, x ∈ caps ∨ x.1 ∈ grpIdxs r := by
  induction r with
  | lit s =>
      intro pos caps out h x hx
      simp only [mrun] at h
      split at h
      · simp only [List.mem_singleton] at h
        subst h
        exact Or.inl hx
      · simp at h
  | ilit s =>
      intro pos caps out h x hx
      simp only [mrun] at h
      split at h
      · simp only [List.mem_singleton] at h
        subst h
        exact Or.inl hx
      · simp at h
  | cls1 p =>
      intro pos caps out h x hx
      simp only [mrun] at h
      rcases hh : (t.drop pos).head? with _ | c
      · rw [hh] at h
        simp at h
      · rw [hh] at h
        by_cases hp : p c = true
        · simp [hp] at h
          subst h
          exact Or.inl hx
        · simp [hp] at h
  | plusG p =>
      intro pos caps out h x hx
      simp only [mrun, List.mem_map] at h
      obtain ⟨k, _, rfl⟩ := h
      exact Or.inl hx
  | starG p =>
      intro pos caps out h x hx
      simp only [mrun, List.mem_map] at h
      obtain ⟨k, _, rfl⟩ := h
      exact Or.inl hx
  | starL p =>
      intro pos caps out h x hx
      simp only [mrun, List.mem_map] at h
      obtain ⟨k, _, rfl⟩ := h
      exact Or.inl hx
  | seq a b iha ihb =>
      intro pos caps out h x hx
      simp only [mrun, List.mem_flatMap] at h
      obtain ⟨mid, hmid, hout⟩ := h
      rcases ihb _ _ _ hout x hx with h1 | h1
      · rcases iha _ _ _ hmid x h1 with h2 | h2
        · exact Or.inl h2
        · exact Or.inr (by simp [grpIdxs, h2])
      · exact Or.inr (by simp [grpIdxs, h1])
  | alt a b iha ihb =>
      intro pos caps out h x hx
      simp only [mrun, List.mem_append] at h
      rcases h with h | h
      · rcases iha _ _ _ h x hx with h1 | h1
        · exact Or.inl h1
        · exact Or.inr (by simp [grpIdxs, h1])
      · rcases ihb _ _ _ h x hx with h1 | h1
        · exact Or.inl h1
        · exact Or.inr (by simp [grpIdxs, h1])
  | opt a iha =>
      intro pos caps out h x hx
      simp only [mrun, List.mem_append, List.mem_singleton] at h
      rcases h with h | h
      · rcases iha _ _ _ h x hx with h1 | h1
        · exact Or.inl h1
        · exact Or.inr (by simpa [grpIdxs] using h1)
      · subst h
        exact Or.inl hx
  | grp i a iha =>
      intro pos caps out h x hx
      simp only [mrun, List.mem_map] at h
      obtain ⟨pc, hpc, rfl⟩ := h
      simp only [List.mem_cons] at hx
      rcases hx with hx | hx
      · subst hx
        exact Or.inr (by simp [grpIdxs])
      · rcases iha pos caps pc hpc x hx with h1 | h1
        · exact Or.inl h1
        · exact Or.inr (by simp [grpIdxs, h1])
  | look a iha =>
      intro pos caps out h x hx
      simp only [mrun] at h
      split at h
      · simp at h
      · simp only [List.mem_singleton] at h
        subst h
        exact Or.inl hx
  | eos =>
      intro pos caps out h x hx
      simp only [mrun] at h
      split at h
      · simp only [List.mem_singleton] at h
        subst h
        exact Or.inl hx
      · simp at h

/-- Soundness of the scan: a `searchAux` result is a matcher outcome. -/
theorem searchAux_sound (t : List Char) (r : Rx) :
    ∀ fuel pos m, searchAux t r fuel pos = some m → (m.2.1, m.2.2) ∈ mrun t r m.1 [] := by
  intro fuel
  induction fuel with
  | zero =>
      intro pos m h
      simp [searchAux] at h
  | succ n ih =>
      intro pos m h
      simp only [searchAux] at h
      split at h
      case _ stop caps heq =>
        simp only [Option.some.injEq] at h
        subst h
        exact head?_mem heq
      case _ heq =>
        split at h
        · exact ih (pos + 1) m h
        · simp at h

/-- Soundness of `search`. -/
theorem search_sound (t : List Char) (r : Rx) (pos : Nat) (m : Nat × Nat × Caps)
    (h : search t r pos = some m) : (m.2.1, m.2.2) ∈ mrun t r m.1 [] :=
  searchAux_sound t r _ _ m h

/-- Soundness of the global-exec loop. -/
theorem execAllAux_sound (t : List Char) (r : Rx) :
    ∀ fuel pos m, m ∈ execAllAux t r fuel pos → (m.2.1, m.2.2) ∈ mrun t r m.1 [] := by
  intro fuel
  induction fuel with
  | zero =>
      intro pos m h
      simp [execAllAux] at h
  | succ n ih =>
      intro pos m h
      simp only [execAllAux] at h
      split at h
      · simp at h
      · split at h
        case _ heq => simp at h
        case _ st sp caps heq =>
          simp only [List.mem_cons] at h
          rcases h with h | h
          · subst h
            exact search_sound t r pos _ heq
          · exact ih _ m h

/-- Soundness of `execAll`. -/
theorem execAll_sound (t : List Char) (r : Rx) (m : Nat × Nat × Caps)
    (h : m ∈ execAll t r) : (m.2.1, m.2.2) ∈ mrun t r m.1 [] :=
  execAllAux_sound t r _ _ m h

/-- Unfolding equation for sequencing. -/
theorem mrun_seq (t : List Char) (a b : Rx) (pos : Nat) (caps : Caps) :
    mrun t (.seq a b) pos caps =
      (mrun t a pos caps).flatMap (fun pc => mrun t b pc.1 pc.2) := rfl

/-- Unfolding equation for groups. -/
theorem mrun_grp (t : List Char) (i : Nat) (a : Rx) (pos : Nat) (caps : Caps) :
    mrun t (.grp i a) pos caps =
      (mrun t a pos caps).map (fun pc => (pc.1, (i, pos, pc.1) :: pc.2)) := rfl

/-- In any pass-1 match, group 1 records a non-degenerate span starting at the
match position: the captured path is a non-empty substring of the subject. -/
theorem fileLine_cap1 (t : List Char) (pos : Nat) (out : Nat × Caps)
    (h : out ∈ mrun t fileLinePattern pos []) :
    ∃ e, capLookup out.2 1 = some (pos, e) ∧ pos < e ∧ pos < t.length := by
  simp only [fileLinePattern, mrun_seq, mrun_grp, List.mem_flatMap, List.mem_map] at h
  obtain ⟨mid, ⟨pc, hpc, hmid⟩, hb⟩ := h
  subst hmid
  have hc0 : pc.2 = [] := by
    have hsrc := mrun_caps_src t pathAtom pos [] pc hpc
    rw [List.eq_nil_iff_forall_not_mem]
    intro x hx
    rcases hsrc x hx with h1 | h1
    · exact List.not_mem_nil x h1
    · have hg : grpIdxs pathAtom = [] := rfl
      rw [hg] at h1
      exact List.not_mem_nil _ h1
  rw [pathAtom, mrun_seq, List.mem_flatMap] at hpc
  obtain ⟨q, hq, hrest⟩ := hpc
  obtain ⟨hq1, hq2, -⟩ := mrun_plusG_bounds t isPathChar pos [] q hq
  have hm1 : q.1 ≤ pc.1 := mrun_mono t pathExtTail q.1 q.2 pc hrest
  have hin : (1, pos, pc.1) ∈ out.2 :=
    mrun_caps_grow t fileLineTail _ _ out hb (1, pos, pc.1) (List.mem_cons_self _ _)
  have hsrc2 := mrun_caps_src t fileLineTail _ _ out hb
  rcases hfe : out.2.find? (fun x => x.1 = 1) with _ | x
  · exact absurd (by simp : ((1, pos, pc.1) : Nat × Nat × Nat).1 = 1)
      (by simpa using List.find?_eq_none.mp hfe (1, pos, pc.1) hin)
  · have hxmem := List.mem_of_find?_eq_some hfe
    have hx1 := List.find?_some hfe
    simp only [decide_eq_true_eq] at hx1
    rcases hsrc2 x hxmem with hx | hx
    · rw [hc0] at hx
      simp only [List.mem_singleton] at hx
      subst hx
      refine ⟨pc.1, ?_, by omega, by omega⟩
      simp [capLookup, hfe]
    · have hg : grpIdxs fileLineTail = [2, 3] := rfl
      rw [hg] at hx
      simp [hx1] at hx

/-- Every pass-1 match carries a non-empty path string. -/
theorem pass1Matches_fst_ne (t : List Char) : ∀ pm ∈ pass1Matches t, pm.1 ≠ "" := by
  intro pm hpm
  simp only [pass1Matches, List.mem_map] at hpm
  obtain ⟨m, hm, rfl⟩ := hpm
  have hsound := execAll_sound t fileLinePattern m hm
  obtain ⟨e, hcap, hlt, hlen⟩ := fileLine_cap1 t m.1 (m.2.1, m.2.2) hsound
  show ((capString t m.2.2 1).getD "") ≠ ""
  simp only [capString, hcap, Option.map_some', Option.getD_some]
  intro hempty
  have hdat : (t.drop m.1).take (e - m.1) = ([] : List Char) :=
    congrArg String.data hempty
  have hlen2 := congrArg List.length hdat
  simp only [List.length_take, List.length_drop, List.length_nil] at hlen2
  omega

/-- Every pass-2 annotation is non-empty (the JS `if (match[1])` truthiness). -/
theorem pass2Annotations_ne (t : List Char) : ∀ x ∈ pass2Annotations t, x ≠ "" := by
  intro x hx
  simp only [pass2Annotations, List.mem_filterMap] at hx
  obtain ⟨m, _, hxe⟩ := hx
  rcases hcs : capString t m.2.2 1 with _ | p
  · rw [hcs] at hxe
    simp at hxe
  · rw [hcs] at hxe
    by_cases hp : p = ""
    · simp [hp] at hxe
    · simp only [if_neg hp, Option.some.injEq] at hxe
      subst hxe
      exact hp

/-- Entries the pass-2 loop appends beyond an accumulator `ex`. -/
def pass2NewAux (acc ex : List FileReference) : List String → List FileReference
  | [] => ex
  | p :: ps =>
      if (acc ++ ex).any (fun r => r.path = p) then pass2NewAux acc ex ps
      else pass2NewAux acc (ex ++ [{ path := p, lineNumbers := [] }]) ps

/-- Entries the pass-2 loop appends after the pass-1 prefix `acc`. -/
def pass2New (acc : List FileReference) (ps : List String) : List FileReference :=
  pass2NewAux acc [] ps

theorem addPass2_eq_aux :
    ∀ (ps : List String) (acc ex : List FileReference),
      addPass2 (acc ++ ex) ps = acc ++ pass2NewAux acc ex ps := by
  intro ps
  induction ps with
  | nil => intro acc ex; simp [addPass2, pass2NewAux]
  | cons p ps ih =>
      intro acc ex
      simp only [addPass2, pass2NewAux]
      by_cases hc : ((acc ++ ex).any fun r => r.path = p) = true
      · rw [if_pos hc, if_pos hc]
        exact ih acc ex
      · rw [if_neg hc, if_neg hc, List.append_assoc]
        exact ih acc (ex ++ [{ path := p, lineNumbers := [] }])

/-- The pass-2 loop only ever appends: the accumulator is a prefix. -/
theorem addPass2_decomp (acc : List FileReference) (ps : List String) :
    addPass2 acc ps = acc ++ pass2New acc ps := by
  have h := addPass2_eq_aux ps acc []
  simpa [pass2New] using h

/-- Specification of the pass-2 appended entries: empty line numbers, drawn
from the annotation list, fresh with respect to everything already present,
and pairwise distinct paths. -/
theorem pass2NewAux_spec :
    ∀ (ps : List String) (acc ex : List FileReference),
      ∃ rest, pass2NewAux acc ex ps = ex ++ rest ∧
        (∀ r ∈ rest, r.lineNumbers = [] ∧ r.path ∈ ps ∧ ∀ q ∈ acc ++ ex, q.path ≠ r.path) ∧
        (rest.map FileReference.path).Nodup := by
  intro ps
  induction ps with
  | nil =>
      intro acc ex
      exact ⟨[], by simp [pass2NewAux], by simp, by simp⟩
  | cons p ps ih =>
      intro acc ex
      by_cases hc : ((acc ++ ex).any fun r => r.path = p) = true
      · obtain ⟨rest, h1, h2, h3⟩ := ih acc ex
        refine ⟨rest, by simp [pass2NewAux, hc, h1], ?_, h3⟩
        intro r hr
        obtain ⟨ha, hb, hcc⟩ := h2 r hr
        exact ⟨ha, List.mem_cons_of_mem p hb, hcc⟩
      · obtain ⟨rest, h1, h2, h3⟩ := ih acc (ex ++ [{ path := p, lineNumbers := [] }])
        have hfresh : ∀ q ∈ acc ++ ex, q.path ≠ p := by
          intro q hq hqp
          exact hc (List.any_eq_true.mpr ⟨q, hq, by simp [hqp]⟩)
        refine ⟨{ path := p, lineNumbers := [] } :: rest, ?_, ?_, ?_⟩
        · simp only [pass2NewAux, if_neg hc, h1, List.append_assoc, List.singleton_append]
        · intro r hr
          rcases List.mem_cons.mp hr with h | h
          · subst h
            exact ⟨rfl, List.mem_cons_self .., fun q hq => hfresh q hq⟩
          · obtain ⟨ha, hb, hcc⟩ := h2 r h
            refine ⟨ha, List.mem_cons_of_mem p hb, ?_⟩
            intro q hq
            refine hcc q ?_
            rcases List.mem_append.mp hq with h' | h'
            · exact List.mem_append_left _ h'
            · exact List.mem_append_right _ (List.mem_append_left _ h')
        · simp only [List.map_cons, List.nodup_cons]
          refine ⟨?_, h3⟩
          intro hmem
          simp only [List.mem_map] at hmem
          obtain ⟨r, hr, hrp⟩ := hmem
          have hne := (h2 r hr).2.2 { path := p, lineNumbers := [] }
            (List.mem_append_right _ (List.mem_append_right _ (List.mem_cons_self ..)))
          exact hne hrp.symm

/-- Output of `extractFileReferences` on a string: the pass-1 references
followed by the genuinely new pass-2 references. -/
theorem extract_decomp (s : String) :
    extractFileReferences (some s) =
      pass1Refs s.toList ++ pass2New (pass1Refs s.toList) (pass2Annotations s.toList) := by
  by_cases hs : s = ""
  · subst hs
    rfl
  · simp only [extractFileReferences]
    rw [if_neg hs]
    exact addPass2_decomp ..

/-- Any pass-1 match contributes its FileReference to the final output. -/
theorem pass1_mem_extract (s : String) (m : String × Nat × Nat)
    (hm : m ∈ pass1Matches s.toList) :
    ({ path := m.1, lineNumbers := collectLines m.2.1 m.2.2 } : FileReference) ∈
      extractFileReferences (some s) := by
  rw [extract_decomp]
  apply List.mem_append_left
  simp only [pass1Refs, List.mem_map]
  exact ⟨m, hm, rfl⟩

/-! ## Claim theorems: extractFileReferences -/

/-- Claim C1, counterexample: pass 1 does not deduplicate, so a text
mentioning the same path twice in `path:line` form yields two FileReference
entries with the same path, refuting the claimed invariant. -/
theorem c1_counterexample :
    (extractFileReferences (some "a.js:1 a.js:2")).map FileReference.path =
      ["a.js", "a.js"] ∧
    ¬ ((extractFileReferences (some "a.js:1 a.js:2")).map FileReference.path).Nodup :=
  ⟨rfl, by decide⟩

/-- Claim C1 (amended): deduplication applies only to the pass-2 additions:
the output is the pass-1 list (which may repeat a path, one entry per match)
followed by pass-2 entries whose paths are pairwise distinct and distinct
from every pass-1 path. -/
theorem c1_dedup_scope :
    ∀ s : String,
      extractFileReferences (some s) =
        pass1Refs s.toList ++
          pass2New (pass1Refs s.toList) (pass2Annotations s.toList) ∧
      ((pass2New (pass1Refs s.toList) (pass2Annotations s.toList)).map
        FileReference.path).Nodup ∧
      ∀ r ∈ pass2New (pass1Refs s.toList) (pass2Annotations s.toList),
        ∀ q ∈ pass1Refs s.toList, q.path ≠ r.path := by
  intro s
  obtain ⟨rest, h1, h2, h3⟩ :=
    pass2NewAux_spec (pass2Annotations s.toList) (pass1Refs s.toList) []
  have he : pass2New (pass1Refs s.toList) (pass2Annotations s.toList) = rest := by
    simpa [pass2New] using h1
  refine ⟨extract_decomp s, ?_, ?_⟩
  · rw [he]
    exact h3
  · rw [he]
    intro r hr q hq
    exact (h2 r hr).2.2 q (List.mem_append_left _ hq)

/-- Claim C1 witness: on a concrete text, the pass-2 entry has a path
distinct from the pass-1 entry. -/
theorem c1_witness :
    ({ path := "b.js", lineNumbers := [] } : FileReference) ∈
      pass2New (pass1Refs ("a.js:3 ```js b.js\nx\n```").toList)
        (pass2Annotations ("a.js:3 ```js b.js\nx\n```").toList) ∧
    ({ path := "a.js", lineNumbers := [3] } : FileReference) ∈
      pass1Refs ("a.js:3 ```js b.js\nx\n```").toList ∧
    FileReference.path { path := "a.js", lineNumbers := [3] } ≠
      FileReference.path { path := "b.js", lineNumbers := [] } :=
  ⟨by decide, by decide,
    (c1_dedup_scope "a.js:3 ```js b.js\nx\n```").2.2
      { path := "b.js", lineNumbers := [] } (by decide)
      { path := "a.js", lineNumbers := [3] } (by decide)⟩

/-- Claim C5: every pass-1 match `path:a-b` with `a ≤ b` contributes a
FileReference whose line numbers are the full inclusive range `[a, ..., b]`;
concretely, `a/b/file.js:10-12` yields `[10, 11, 12]` and `file.py:5`
yields `[5]`. -/
theorem c5_range_expansion :
    (∀ (s p : String) (a b : Nat),
        (p, a, b) ∈ pass1Matches s.toList → a ≤ b →
        ({ path := p, lineNumbers := List.range' a (b - a + 1) } : FileReference) ∈
          extractFileReferences (some s)) ∧
    extractFileReferences (some "a/b/file.js:10-12") =
      [{ path := "a/b/file.js", lineNumbers := [10, 11, 12] }] ∧
    extractFileReferences (some "file.py:5") =
      [{ path := "file.py", lineNumbers := [5] }] := by
  refine ⟨?_, rfl, rfl⟩
  intro s p a b hm hab
  have h : ({ path := p, lineNumbers := collectLines a b } : FileReference) ∈
      extractFileReferences (some s) := pass1_mem_extract s (p, a, b) hm
  have hcl : collectLines a b = List.range' a (b - a + 1) := by
    simp only [collectLines]
    congr 1
    omega
  rw [hcl] at h
  exact h

/-- Claim C5 witness: the range expansion applied to a concrete text. -/
theorem c5_witness :
    ("a/b/file.js", 10, 12) ∈ pass1Matches ("see a/b/file.js:10-12 ok").toList ∧
    10 ≤ 12 ∧
    ({ path := "a/b/file.js", lineNumbers := List.range' 10 (12 - 10 + 1) } :
        FileReference) ∈
      extractFileReferences (some "see a/b/file.js:10-12 ok") :=
  ⟨by decide, by decide,
    c5_range_expansion.1 "see a/b/file.js:10-12 ok" "a/b/file.js" 10 12
      (by decide) (by decide)⟩

/-- Claim C6: pass 2 never overwrites pass-1 line numbers: the output starts
with the pass-1 references unchanged, and pass-2 additions carry empty line
numbers and paths not present in pass 1; concretely, a fenced block annotated
with a path already matched by pass 1 leaves the pass-1 entry intact. -/
theorem c6_pass2_preserves_pass1 :
    (∀ s : String,
        extractFileReferences (some s) =
          pass1Refs s.toList ++
            pass2New (pass1Refs s.toList) (pass2Annotations s.toList) ∧
        ∀ r ∈ pass2New (pass1Refs s.toList) (pass2Annotations s.toList),
          r.lineNumbers = [] ∧ ∀ q ∈ pass1Refs s.toList, q.path ≠ r.path) ∧
    extractFileReferences (some "a.js:3 ```js a.js\nx\n```") =
      [{ path := "a.js", lineNumbers := [3] }] := by
  constructor
  · intro s
    obtain ⟨rest, h1, h2, h3⟩ :=
      pass2NewAux_spec (pass2Annotations s.toList) (pass1Refs s.toList) []
    have he : pass2New (pass1Refs s.toList) (pass2Annotations s.toList) = rest := by
      simpa [pass2New] using h1
    refine ⟨extract_decomp s, ?_⟩
    rw [he]
    intro r hr
    exact ⟨(h2 r hr).1, fun q hq => (h2 r hr).2.2 q (List.mem_append_left _ hq)⟩
  · rfl

/-- Claim C6 witness: a concrete pass-2 addition has empty line numbers. -/
theorem c6_witness :
    ({ path := "b.js", lineNumbers := [] } : FileReference) ∈
      pass2New (pass1Refs ("c.js:7 ```js b.js\ny\n```").toList)
        (pass2Annotations ("c.js:7 ```js b.js\ny\n```").toList) ∧
    FileReference.lineNumbers { path := "b.js", lineNumbers := [] } = [] :=
  ⟨by decide,
    ((c6_pass2_preserves_pass1.1 "c.js:7 ```js b.js\ny\n```").2
      { path := "b.js", lineNumbers := [] } (by decide)).1⟩

/-- Claim C8, counterexample: the token `file.js:0` produces the line number
0, so line numbers are not always positive. -/
theorem c8_counterexample :
    extractFileReferences (some "file.js:0") =
      [{ path := "file.js", lineNumbers := [0] }] ∧
    ¬ (∀ r ∈ extractFileReferences (some "file.js:0"),
        ∀ n ∈ r.lineNumbers, 0 < n) :=
  ⟨rfl, by decide⟩

/-- Claim C8 (amended): every FileReference returned by any extraction call
has a non-empty path, and its line numbers form a contiguous ascending run
(the expanded inclusive range, or the empty sequence); the values are the
literal parsed decimals, which include 0 for a `path:0` token. -/
theorem c8_path_nonempty :
    (∀ input : Option String, ∀ r ∈ extractFileReferences input,
        r.path ≠ "" ∧ ∃ a n, r.lineNumbers = List.range' a n) ∧
    extractFileReferences (some "file.js:0") =
      [{ path := "file.js", lineNumbers := [0] }] := by
  refine ⟨?_, rfl⟩
  intro input r hr
  rcases input with _ | s
  · simp [extractFileReferences] at hr
  · rw [extract_decomp] at hr
    rcases List.mem_append.mp hr with h | h
    · simp only [pass1Refs, List.mem_map] at h
      obtain ⟨m, hm, rfl⟩ := h
      exact ⟨pass1Matches_fst_ne s.toList m hm, m.2.1, m.2.2 + 1 - m.2.1, rfl⟩
    · obtain ⟨rest, h1, h2, h3⟩ :=
        pass2NewAux_spec (pass2Annotations s.toList) (pass1Refs s.toList) []
      have he : pass2New (pass1Refs s.toList) (pass2Annotations s.toList) = rest := by
        simpa [pass2New] using h1
      rw [he] at h
      refine ⟨pass2Annotations_ne s.toList r.path (h2 r h).2.1, 0, 0, ?_⟩
      rw [(h2 r h).1, List.range'_zero]

/-- Claim C8 witness: a concrete returned reference has a non-empty path. -/
theorem c8_witness :
    ({ path := "file.py", lineNumbers := [5] } : FileReference) ∈
      extractFileReferences (some "go file.py:5") ∧
    (FileReference.path { path := "file.py", lineNumbers := [5] } ≠ "" ∧
      ∃ a n, FileReference.lineNumbers { path := "file.py", lineNumbers := [5] } =
        List.range' a n) :=
  ⟨by decide,
    c8_path_nonempty.1 (some "go file.py:5")
      { path := "file.py", lineNumbers := [5] } (by decide)⟩

/-- Claim C10: a pass-1 range token with end strictly below start produces a
FileReference with an empty line-number sequence, without any error;
concretely `file.js:10-5` yields one entry with no line numbers. -/
theorem c10_descending_range :
    (∀ (s p : String) (a b : Nat),
        (p, a, b) ∈ pass1Matches s.toList → b < a →
        ({ path := p, lineNumbers := [] } : FileReference) ∈
          extractFileReferences (some s)) ∧
    extractFileReferences (some "file.js:10-5") =
      [{ path := "file.js", lineNumbers := [] }] := by
  refine ⟨?_, rfl⟩
  intro s p a b hm hba
  have h : ({ path := p, lineNumbers := collectLines a b } : FileReference) ∈
      extractFileReferences (some s) := pass1_mem_extract s (p, a, b) hm
  have hcl : collectLines a b = [] := by
    simp only [collectLines]
    have hz : b + 1 - a = 0 := by omega
    rw [hz, List.range'_zero]
  rw [hcl] at h
  exact h

/-- Claim C10 witness: a concrete descending range yields empty line numbers. -/
theorem c10_witness :
    ("file.js", 9, 2) ∈ pass1Matches ("x file.js:9-2 y").toList ∧ 2 < 9 ∧
    ({ path := "file.js", lineNumbers := [] } : FileReference) ∈
      extractFileReferences (some "x file.js:9-2 y") :=
  ⟨by decide, by decide,
    c10_descending_range.1 "x file.js:9-2 y" "file.js" 9 2 (by decide) (by decide)⟩

/-! ## Claim theorems: parseAIResponse and analyzeCode -/

deriving instance DecidableEq for Except

/-- Claim C2, counterexample: null input makes `parseAIResponse` throw
(modelled by the error result) instead of returning a default structure. -/
theorem c2_counterexample :
    parseAIResponse none [] = Except.error "TypeError: null has no method match" ∧
    ¬ ∃ sol : StructuredSolution, parseAIResponse none [] = Except.ok sol :=
  ⟨rfl, by rintro ⟨sol, h⟩; simp [parseAIResponse] at h⟩

/-- Claim C2 (amended): empty-string input never throws in either component,
yielding empty/default structures, and `extractFileReferences` also accepts
null; only `parseAIResponse` on null throws.  Every non-null string input to
`parseAIResponse` returns normally. -/
theorem c2_empty_default :
    extractFileReferences none = [] ∧
    extractFileReferences (some "") = [] ∧
    (∀ kf : List KnownFile,
        parseAIResponse (some "") kf =
          Except.ok { analysis := "", solution := "", codeSnippets := [],
                      bestPractices := [] }) ∧
    (∀ (s : String) (kf : List KnownFile),
        ∃ sol, parseAIResponse (some s) kf = Except.ok sol) := by
  refine ⟨rfl, rfl, ?_, ?_⟩
  · intro kf
    rfl
  · intro s kf
    exact ⟨structureCore s kf, rfl⟩

/-- Claim C3, counterexample: the example section never yields
`["Validate input", "Avoid globals"]`: on a single line there is no split
boundary (and with no trailing newline the section is not captured at all),
and with newline-separated items the first item keeps its `1. ` marker. -/
theorem c3_counterexample :
    (parseAIResponse (some "Best Practices: 1. Validate input 2. Avoid globals") []).map
      StructuredSolution.bestPractices ≠ Except.ok ["Validate input", "Avoid globals"] ∧
    (parseAIResponse (some "Best Practices:\n1. Validate input\n2. Avoid globals\n") []).map
      StructuredSolution.bestPractices ≠ Except.ok ["Validate input", "Avoid globals"] :=
  ⟨by decide, by decide⟩

/-- Claim C3 (amended): the captured best-practices text is split at
numbered, hyphen or asterisk markers only where preceded by a line break,
so the first item keeps its marker; a single-line section is not split, and
with no newline after the section text the section is not captured at all. -/
theorem c3_split_markers :
    (parseAIResponse (some "Best Practices:\n1. Validate input\n2. Avoid globals\n") []).map
      StructuredSolution.bestPractices = Except.ok ["1. Validate input", "Avoid globals"] ∧
    (parseAIResponse (some "Best Practices: 1. Validate input 2. Avoid globals") []).map
      StructuredSolution.bestPractices = Except.ok [] :=
  ⟨rfl, rfl⟩

/-- Claim C4, counterexample: with no later recognized label, the analysis
regex fails (its lookahead has no end-of-input alternative) so the fallback
keeps the label text, and the solution field stays empty. -/
theorem c4_counterexample :
    (parseAIResponse (some "Analysis: broken issue\n\nSecond part") []).map
      StructuredSolution.analysis ≠ Except.ok "broken issue" ∧
    (parseAIResponse (some "Solution: apply the patch") []).map
      StructuredSolution.solution ≠ Except.ok "apply the patch" :=
  ⟨by decide, by decide⟩

/-- Claim C4 (amended): analysis and solution are captured only up to a
following recognized label (end of input is accepted only for the
best-practices section); with no following label the analysis falls back to
the first paragraph including the label text, and the solution stays empty. -/
theorem c4_section_capture :
    (parseAIResponse (some "Analysis: foo\nSolution: bar\nBest Practices:\n- x\n") []).map
      StructuredSolution.analysis = Except.ok "foo" ∧
    (parseAIResponse (some "Analysis: foo\nSolution: bar\nBest Practices:\n- x\n") []).map
      StructuredSolution.solution = Except.ok "bar" ∧
    (parseAIResponse (some "Analysis: broken issue\n\nSecond part") []).map
      StructuredSolution.analysis = Except.ok "Analysis: broken issue" ∧
    (parseAIResponse (some "Solution: apply the patch") []).map
      StructuredSolution.solution = Except.ok "" :=
  ⟨rfl, rfl, rfl, rfl⟩

/-- Specification-side matching policy for code-snippet cross-referencing:
bidirectional substring containment, first matching KnownFile in list order. -/
def specFirstMatch (a : String) : List KnownFile → Option KnownFile
  | [] => none
  | f :: fs =>
      if strIncludes a f.path || strIncludes f.path a then some f
      else specFirstMatch a fs

/-- The source's `Array.find` call implements the spec-side policy. -/
theorem find_eq_specFirstMatch (a : String) :
    ∀ kf : List KnownFile,
      kf.find? (fun f => strIncludes f.path a || strIncludes a f.path) =
        specFirstMatch a kf := by
  intro kf
  induction kf with
  | nil => rfl
  | cons f fs ih =>
      by_cases hv : (strIncludes a f.path || strIncludes f.path a) = true
      · have hv2 : (strIncludes f.path a || strIncludes a f.path) = true := by
          rw [Bool.or_comm]
          exact hv
        simp [List.find?, specFirstMatch, hv, hv2]
      · have hv2 : ¬ (strIncludes f.path a || strIncludes a f.path) = true := by
          rw [Bool.or_comm]
          exact hv
        simp [List.find?, specFirstMatch, hv, hv2, ih]

/-- Claim C7: a snippet's file resolution follows the bidirectional
containment policy: the first matching KnownFile (in order) supplies
`filePath` (its own path) and `originalCode` (its content); with no match the
raw annotation (possibly empty) is kept and `originalCode` is empty; the
snippets of `structureCore` are exactly the per-block results; concretely, a
block annotated `src/app.js` resolves to the known file of that path. -/
theorem c7_snippet_crossref :
    (∀ (kf : List KnownFile) (t : List Char) (m : Nat × Nat × Caps) (f : KnownFile),
        (capString t m.2.2 1).getD "" ≠ "" →
        specFirstMatch ((capString t m.2.2 1).getD "") kf = some f →
        (mkSnippet kf t m).filePath = f.path ∧
        (mkSnippet kf t m).originalCode = f.content) ∧
    (∀ (kf : List KnownFile) (t : List Char) (m : Nat × Nat × Caps),
        (capString t m.2.2 1).getD "" ≠ "" →
        specFirstMatch ((capString t m.2.2 1).getD "") kf = none →
        (mkSnippet kf t m).filePath = (capString t m.2.2 1).getD "" ∧
        (mkSnippet kf t m).originalCode = "") ∧
    (∀ (kf : List KnownFile) (t : List Char) (m : Nat × Nat × Caps),
        (capString t m.2.2 1).getD "" = "" →
        (mkSnippet kf t m).filePath = "" ∧ (mkSnippet kf t m).originalCode = "") ∧
    (∀ (s : String) (kf : List KnownFile),
        (structureCore s kf).codeSnippets =
          (execAll s.toList codeBlockPattern).map (mkSnippet kf s.toList)) ∧
    (parseAIResponse (some "```js src/app.js\nnew code\n```")
        [{ path := "src/app.js", content := "OLD" }]).map
      StructuredSolution.codeSnippets =
      Except.ok [{ filePath := "src/app.js", originalCode := "OLD",
                   suggestedCode := "new code", lineNumbers := [] }] := by
  refine ⟨?_, ?_, ?_, fun s kf => rfl, rfl⟩
  · intro kf t m f hne hsm
    simp [mkSnippet, if_neg hne, find_eq_specFirstMatch, hsm]
  · intro kf t m hne hsm
    simp [mkSnippet, if_neg hne, find_eq_specFirstMatch, hsm]
  · intro kf t m hz
    simp [mkSnippet, if_pos hz, hz]

/-- Claim C7 witness: the resolution applied to a concrete block and file. -/
theorem c7_witness :
    (capString ("```js src/app.js\nnew code\n```").toList [(1, 6, 16)] 1).getD "" ≠ "" ∧
    specFirstMatch
        ((capString ("```js src/app.js\nnew code\n```").toList [(1, 6, 16)] 1).getD "")
        [{ path := "src/app.js", content := "OLD" }] =
      some { path := "src/app.js", content := "OLD" } ∧
    (mkSnippet [{ path := "src/app.js", content := "OLD" }]
        ("```js src/app.js\nnew code\n```").toList (0, 29, [(1, 6, 16)])).filePath =
      "src/app.js" :=
  ⟨by decide, by decide,
    (c7_snippet_crossref.1 [{ path := "src/app.js", content := "OLD" }]
      ("```js src/app.js\nnew code\n```").toList (0, 29, [(1, 6, 16)])
      { path := "src/app.js", content := "OLD" } (by decide) (by decide)).1⟩

/-- Claim C9: the heuristic categories of `analyzeCode` are independent: any
non-empty code containing an unsafe-evaluation pattern and matching a
hardcoded-credential pattern yields both security records, and they are
distinct records. -/
theorem c9_security_coexist :
    ∀ c : String, c ≠ "" →
      (strIncludes c "eval(" || strIncludes c "new Function(") = true →
      credentialPatterns.any (fun r => rxTest c.toList r) = true →
      ({ type := "security", description := "Potentially unsafe code execution",
         severity := "high" } : CodeIssue) ∈ analyzeCode (some c) ∧
      ({ type := "security", description := "Potential hardcoded credentials found",
         severity := "critical" } : CodeIssue) ∈ analyzeCode (some c) ∧
      ({ type := "security", description := "Potentially unsafe code execution",
         severity := "high" } : CodeIssue) ≠
        { type := "security", description := "Potential hardcoded credentials found",
          severity := "critical" } := by
  intro c hc h1 h2
  refine ⟨?_, ?_, by decide⟩
  · simp only [analyzeCode]
    rw [if_neg hc, if_pos h1]
    simp [List.mem_append]
  · simp only [analyzeCode]
    rw [if_neg hc, if_pos h2]
    simp [List.mem_append]

/-- Claim C9 witness: a concrete code string with both security patterns. -/
theorem c9_witness :
    ("eval( password:\"x\"" : String) ≠ "" ∧
    (strIncludes "eval( password:\"x\"" "eval(" ||
      strIncludes "eval( password:\"x\"" "new Function(") = true ∧
    credentialPatterns.any (fun r => rxTest ("eval( password:\"x\"").toList r) = true ∧
    ({ type := "security", description := "Potentially unsafe code execution",
       severity := "high" } : CodeIssue) ∈ analyzeCode (some "eval( password:\"x\"") :=
  ⟨by decide, by decide, by decide,
    (c9_security_coexist "eval( password:\"x\"" (by decide) (by decide) (by decide)).1⟩

/-- Claim C2 witness: the empty-string case applied at a concrete file list. -/
theorem c2_witness :
    parseAIResponse (some "") [{ path := "a.js", content := "A" }] =
      Except.ok { analysis := "", solution := "", codeSnippets := [],
                  bestPractices := [] } :=
  c2_empty_default.2.2.1 [{ path := "a.js", content := "A" }]
